import Mathlib

/-!
Verification of the harmonic-analysis-and-insertion engine of the music-app
repository (`process_score.py`, orchestrated by `app.py`).

The score model (parts, measures, notes, chords) is music21's in-memory
structure, embedded shallowly below.  Calls into music21's analysis routines
(`harmony.chordSymbolFromChord`, `roman.romanNumeralFromChord`) can raise or
return nothing; they are modelled by an `Adapter` record of possibly-failing
functions, so the engine's control flow around them is the object of proof
while the library's music theory stays abstract.
-/

set_option autoImplicit false
set_option linter.unusedVariables false

namespace MusicApp

/-- Offsets within a measure (music21 quarter-length values). -/
abbrev QL := Rat

/-- A concrete pitch: step letter, accidental suffix and octave.  music21's
`Pitch.name` is the step with the accidental and no octave, e.g. `"C#"`. -/
structure Pitch where
  step : String
  acc : String
  octave : Int
deriving Repr, DecidableEq

/-- `pitch.name` in music21: step plus accidental, octave dropped. -/
def Pitch.name (p : Pitch) : String := p.step ++ p.acc

/-- A time signature carried by a measure. -/
structure TimeSig where
  beats : Nat
  beatType : Nat
deriving Repr, DecidableEq

/-- A key signature carried by a measure. -/
structure KeySig where
  sharps : Int
deriving Repr, DecidableEq

/-- A global tonal center (`score.analyze('key')` result), identified by its
label; used only as a fallback signal, never inspected further. -/
abbrev Key := String

/-- A chord symbol: its figure string and any attached lyric texts.
`harmony.ChordSymbol(figure)` stores the figure; `addLyric` appends a text. -/
structure ChordSym where
  figure : String
  lyrics : List String
deriving Repr, DecidableEq

/-- `harmony.ChordSymbol(figure)`: a fresh symbol with the given figure and no
lyrics.  Constructing a symbol from a figure string stores the figure (§3 of
the spec: a ChordSymbol is a label with a figure); the engine only ever feeds
it figures that the adapter itself produced or plain pitch names. -/
def ChordSym.ofFigure (fig : String) : ChordSym := ⟨fig, []⟩

/-- One element of a measure's stream, in stream order:
a single `note.Note` (whose pitch may be missing — spec §3: signifies a
rest/undetermined pitch), a `chord.Chord` with its pitch list, a
`harmony.ChordSymbol` event (these occur only in the synthetic chords part
built by the assembler; scores coming from the OMR front end contain none),
or a nested grouping (`stream.Voice`) holding further elements. -/
inductive MElem where
  | note (off : QL) (pitch : Option Pitch)
  | chord (off : QL) (pitches : List Pitch)
  | csym (off : QL) (sym : ChordSym)
  | voice (off : QL) (elems : List MElem)
deriving Repr

/-- The stream offset of an element (position within its container). -/
def MElem.off : MElem → QL
  | .note o _ => o
  | .chord o _ => o
  | .csym o _ => o
  | .voice o _ => o

/-- A `stream.Measure`: its number, optional time/key signature, and its
elements in stream order. -/
structure Measure where
  number : Int
  timeSignature : Option TimeSig
  keySignature : Option KeySig
  elems : List MElem
deriving Repr

/-- A `stream.Part`: its id, staff-line setting, and its measures in order. -/
structure Part where
  id : String
  staffLines : Option Nat := none
  measures : List Measure
deriving Repr

/-- A `stream.Score`: its parts in stream order. -/
structure Score where
  parts : List Part
deriving Repr

/-! ## Recursive traversal of measure streams

`stream.recurse().getElementsByClass(...)` walks the stream depth-first in
stream order, descending into nested substreams, and filters by class.
`note.Note` matches single notes only; `chord.Chord` matches chord events
(`ChordSymbol` events never occur in analyzed input, see `MElem.csym`). -/

mutual

/-- Pitches of the `note.Note` elements under one element, depth-first. -/
def recNotes : MElem → List (Option Pitch)
  | .note _ p => [p]
  | .chord _ _ => []
  | .csym _ _ => []
  | .voice _ es => recNotesList es

/-- Pitches of the `note.Note` elements under a list of elements. -/
def recNotesList : List MElem → List (Option Pitch)
  | [] => []
  | e :: es => recNotes e ++ recNotesList es

end

mutual

/-- Pitch lists of the `chord.Chord` elements under one element, depth-first. -/
def recChords : MElem → List (List Pitch)
  | .note _ _ => []
  | .chord _ ps => [ps]
  | .csym _ _ => []
  | .voice _ es => recChordsList es

/-- Pitch lists of the `chord.Chord` elements under a list of elements. -/
def recChordsList : List MElem → List (List Pitch)
  | [] => []
  | e :: es => recChords e ++ recChordsList es

end

mutual

/-- `len(elem.recurse().getElementsByClass(note.Note))` for one element. -/
def notesIn : MElem → Nat
  | .note _ _ => 1
  | .chord _ _ => 0
  | .csym _ _ => 0
  | .voice _ es => notesInList es

/-- Note count under a list of elements. -/
def notesInList : List MElem → Nat
  | [] => 0
  | e :: es => notesIn e + notesInList es

end

/-- `len(list(p.recurse().getElementsByClass(note.Note)))` for a part:
single-pitch Note events anywhere in the part, through nested groupings. -/
def countPartNotes (p : Part) : Nat :=
  (p.measures.map (fun m => notesInList m.elems)).sum

/-! ## Melody Selector — `choose_melody_part` (process_score.py lines 11-25) -/

/-- The `for p in parts:` loop of `choose_melody_part`: carries
`(best, best_count)`, initially `(None, -1)`, and replaces it whenever the
current part's note count is strictly greater. -/
def selectLoop : Option Part × Int → List Part → Option Part × Int
  | acc, [] => acc
  | (best, bestCount), p :: ps =>
    if bestCount < (countPartNotes p : Int) then
      selectLoop (some p, (countPartNotes p : Int)) ps
    else
      selectLoop (best, bestCount) ps

/-- `choose_melody_part(score)`: raises `ValueError("No parts found in score")`
on an empty score, otherwise scans all parts keeping the strictly-best note
count (`if n_count > best_count`), so ties keep the earlier part. -/
def choose_melody_part (score : Score) : Except String Part :=
  if score.parts.isEmpty then
    .error "No parts found in score"
  else
    match (selectLoop (none, -1) score.parts).1 with
    | some best => .ok best
    | none => .error "No parts found in score"

/-! ## Measure Harmonizer — `analyze_measures` (process_score.py lines 28-84) -/

/-- The outcome of one external adapter call that can raise: `.error ()` is a
raised exception, `.ok v` a normal return. -/
abbrev ExtCall (α : Type) := Except Unit α

/-- The Score Model Adapter's fallible analysis routines as seen from this
engine.  `spell ps forceTriad` is the `try:` body
`chordSymbolFromChord(chord.Chord(ps), forceTriad)` returning the produced
symbol's figure, `none` when the library yields `None`, `.error` when any of
it raises.  `roman p k` is the `try:` body
`ChordSymbol(figure=romanNumeralFromChord(chord.Chord([p]), k).figure)`
returning the figure of the produced label, `.error` when any of it raises. -/
structure Adapter where
  spell : List Pitch → Bool → ExtCall (Option String)
  roman : Pitch → Key → ExtCall String

/-- One analysis tuple `(meas, cs, uncertain)` of `analyze_measures`. -/
structure AnalysisResult where
  meas : Measure
  cs : Option ChordSym
  uncertain : Bool
deriving Repr

/-- Lines 42-46, one iteration: a pitchless Note sets `uncertain`, any other
Note appends its pitch. -/
def noteStep (acc : List Pitch × Bool) (op : Option Pitch) : List Pitch × Bool :=
  match op with
  | none => (acc.1, true)
  | some p => (acc.1 ++ [p], acc.2)

/-- Lines 47-51, one iteration: an empty Chord sets `uncertain`, any other
Chord extends the pitch list with its pitches. -/
def chordStep (acc : List Pitch × Bool) (ps : List Pitch) : List Pitch × Bool :=
  if ps.length = 0 then (acc.1, true) else (acc.1 ++ ps, acc.2)

/-- Pitch collection of one measure (lines 39-51): the Note loop over the
recursed Notes, then the Chord loop over the recursed Chords, starting from
`pitches = []`, `uncertain = False`. -/
def measurePitches (m : Measure) : List Pitch × Bool :=
  let acc1 := (recNotesList m.elems).foldl noteStep ([], false)
  (recChordsList m.elems).foldl chordStep acc1

/-- Lines 52-63: direct chord-spelling with `forceTriad=False`; when that
returns `None`, retried with `forceTriad=True`; any exception in the `try:`
block makes the whole step yield nothing. -/
def spellChord (o : Adapter) (pitches : List Pitch) : Option ChordSym :=
  match o.spell pitches false with
  | .error _ => none
  | .ok (some fig) => some (ChordSym.ofFigure fig)
  | .ok none =>
    match o.spell pitches true with
    | .error _ => none
    | .ok (some fig) => some (ChordSym.ofFigure fig)
    | .ok none => none

/-- `meas.notes`: the top-level NotRest elements of the measure (Notes and
Chords, not Voices), in stream order. -/
def measNotes (m : Measure) : List MElem :=
  m.elems.filter (fun e =>
    match e with
    | .voice _ _ => false
    | _ => true)

/-- Line 68-69: `downbeat_notes = [n for n in meas.notes if abs(n.offset-0) < 1e-8]`,
then `ref_note = downbeat_notes[0] if downbeat_notes else meas.notes[0]`;
`none` is the `IndexError` on an empty `meas.notes`, swallowed by the caller. -/
def downbeatRef (m : Measure) : Option MElem :=
  match (measNotes m).filter (fun e => |e.off - 0| < (1 : QL) / 100000000) with
  | e :: _ => some e
  | [] => (measNotes m).head?

/-- `ref_note.pitch`: defined for a Note with a pitch; a pitchless Note makes
`chord.Chord([None])` raise and a Chord event has no `.pitch` attribute, both
raising inside the same swallowed `try:`. -/
def MElem.notePitch : MElem → Option Pitch
  | .note _ p => p
  | _ => none

/-- Lines 64-75: the key-relative fallback.  Picks the reference element, takes
its pitch, derives a Roman-numeral figure against the key and builds a symbol
from it; any failure anywhere in the `try:` yields nothing. -/
def keyFallback (o : Adapter) (m : Measure) (k : Key) : Option ChordSym :=
  match downbeatRef m with
  | none => none
  | some e =>
    match e.notePitch with
    | none => none
    | some p =>
      match o.roman p k with
      | .error _ => none
      | .ok fig => some (ChordSym.ofFigure fig)

/-- Lines 76-82: the bare-root fallback, `ChordSymbol(figure=pitches[0].name)`.
Building a symbol from a plain pitch name does not raise (spec §4.3 step 5:
this fallback never fails), so the `except:` arm is dead. -/
def rootFallback (pitches : List Pitch) : Option ChordSym :=
  match pitches with
  | [] => none
  | p :: _ => some (ChordSym.ofFigure p.name)

/-- The per-measure body of the `for meas in measures:` loop (lines 37-83). -/
def analyzeMeasure (o : Adapter) (score_key : Option Key) (meas : Measure) :
    AnalysisResult :=
  let pu := measurePitches meas
  let pitches := pu.1
  let uncertain := pu.2
  let cs0 : Option ChordSym :=
    if 0 < pitches.length then spellChord o pitches else none
  let cs1 : Option ChordSym :=
    match cs0, score_key with
    | none, some k => if 0 < pitches.length then keyFallback o meas k else none
    | c, _ => c
  let cs2 : Option ChordSym :=
    match cs1 with
    | none => if 0 < pitches.length then rootFallback pitches else none
    | c => c
  ⟨meas, cs2, uncertain⟩

/-- `analyze_measures(melody_part, score_key)`: `results = []`, then
`results.append(...)` once per measure, in measure order.  (The source's
`getElementsByClass(stream.Measure)` and its empty-list fallback both yield
exactly the part's measure list here, since a Part's stream children are its
measures.) -/
def analyze_measures (o : Adapter) (melody_part : Part)
    (score_key : Option Key) : List AnalysisResult :=
  melody_part.measures.foldl
    (fun results meas => results ++ [analyzeMeasure o score_key meas]) []

/-! ## Chord Track Assembler — `insert_chords_into_score` (lines 87-121) -/

/-- Lines 95-112, one iteration: a fresh measure with the source measure's
number, its time/key signature copied over when present, and — when a chord
symbol exists — a freshly constructed copy of it at offset 0, with an
`"(uncertain)"` lyric attached when the measure was flagged. -/
def buildChordMeasure (r : AnalysisResult) : Measure :=
  { number := r.meas.number
    timeSignature := r.meas.timeSignature
    keySignature := r.meas.keySignature
    elems :=
      match r.cs with
      | none => []
      | some cs =>
        [MElem.csym 0 ⟨cs.figure, if r.uncertain then ["(uncertain)"] else []⟩] }

/-- Lines 89-112: the synthetic `'Chords'` part — `id = 'Chords'`,
`staffLines = 0`, initially empty — with `chord_part.append(new_m)` run once
per analysis result, in order. -/
def chordTrack (analysis_results : List AnalysisResult) : Part :=
  analysis_results.foldl
    (fun part r => { part with measures := part.measures ++ [buildChordMeasure r] })
    { id := "Chords", staffLines := some 0, measures := [] }

/-- `new_score.insert(0, p)`: in music21 every part sits at offset 0 and
equal-offset elements are ordered by insertion index, so inserting one more
part lists it after those already present. -/
def Score.insertPart (sc : Score) (p : Part) : Score :=
  ⟨sc.parts ++ [p]⟩

/-- `insert_chords_into_score(score, melody_part, analysis_results)`
(lines 113-121): a fresh empty Score, the chords part inserted first, then
each original part inserted in its original order.  The original score and
its parts are only referenced, never rebuilt.  (`melody_part` is accepted but
unused, as in the source.) -/
def insert_chords_into_score (score : Score) (melody_part : Part)
    (analysis_results : List AnalysisResult) : Score :=
  let chord_part := chordTrack analysis_results
  let new_score : Score := ⟨[]⟩
  let new_score1 := new_score.insertPart chord_part
  score.parts.foldl Score.insertPart new_score1

/-! ## Orchestration — `process_musicxml_file` (lines 124-182) -/

/-- Run metadata returned by `process_musicxml_file` (lines 177-182). -/
structure Metadata where
  key : Option String
  measures : Nat
  uncertain_measures : Nat
  pdf_written : Bool
deriving Repr, DecidableEq

/-- The externally determined facts of one run: whether the input file exists,
the parsed score, the outcome of `score.analyze('key')`, the adapter behind
the harmonizer's calls, and the outcome of the external PDF rendering step.
The MusicXML serialization itself is kept as the composite score handed to
the writer (a failing `write('musicxml')` would propagate, outside the claims
considered here). -/
structure RunEnv where
  inputExists : Bool
  score : Score
  keyResult : ExtCall Key
  adapter : Adapter
  pdfWrite : ExtCall Unit

/-- A completed run: the composite score handed to the MusicXML writer, and
the returned metadata dict. -/
structure RunOutput where
  written : Score
  meta : Metadata
deriving Repr

/-- `process_musicxml_file`: missing input raises `FileNotFoundError`; key
analysis failure degrades to `score_key = None`; melody selection may raise;
the composite score is serialized; the PDF step (attempted when an output
path was given) sets `pdf_written` only on success and swallows its
exception; the metadata dict is returned. -/
def process_musicxml_file (env : RunEnv) (out_pdf : Bool) :
    Except String RunOutput :=
  if !env.inputExists then
    .error "Input file not found"
  else
    let score_key : Option Key :=
      match env.keyResult with
      | .ok k => some k
      | .error _ => none
    match choose_melody_part env.score with
    | .error e => .error e
    | .ok melody_part =>
      let analysis_results := analyze_measures env.adapter melody_part score_key
      let final_score := insert_chords_into_score env.score melody_part analysis_results
      let pdf_written :=
        if out_pdf then
          match env.pdfWrite with
          | .ok _ => true
          | .error _ => false
        else false
      .ok { written := final_score
            meta := { key := score_key
                      measures := analysis_results.length
                      uncertain_measures :=
                        (analysis_results.filter (fun r => r.uncertain)).length
                      pdf_written := pdf_written } }

/-! ## Specification-side helpers for the Melody Selector -/

/-- The largest note count among `b :: ps` (fold of `max` seeded with `b`'s
count), used to state what `choose_melody_part` selects. -/
def maxCount (b : Part) (ps : List Part) : Nat :=
  ps.foldl (fun a p => max a (countPartNotes p)) (countPartNotes b)

/-- The first part among `b :: ps` attaining the running strict maximum of
note counts — the shape the selector's loop computes. -/
def firstMaxAux (b : Part) : List Part → Part
  | [] => b
  | p :: ps =>
    if countPartNotes b < countPartNotes p then firstMaxAux p ps
    else firstMaxAux b ps

/-! ## Concrete sample data (used by the witness theorems) -/

/-- An adapter on which every spelling attempt yields `None` and every
key-relative inference raises. -/
def noneAdapter : Adapter :=
  ⟨fun _ _ => .ok none, fun _ _ => .error ()⟩

/-- An adapter whose direct spelling succeeds with figure `"C"`. -/
def spellCAdapter : Adapter :=
  ⟨fun _ _ => .ok (some "C"), fun _ _ => .error ()⟩

/-- An adapter whose spelling yields `None` but whose key-relative inference
returns the figure `"I"`. -/
def romanAdapter : Adapter :=
  ⟨fun _ _ => .ok none, fun _ _ => .ok "I"⟩

/-- Middle C. -/
def pC : Pitch := ⟨"C", "", 4⟩

/-- E above middle C. -/
def pE : Pitch := ⟨"E", "", 4⟩

/-- A two-note measure (C4 at beat 1, E4 at beat 2). -/
def demoMeasure : Measure := ⟨1, none, none, [.note 0 (some pC), .note 1 (some pE)]⟩

/-- A measure with no events at all. -/
def emptyMeasure : Measure := ⟨2, none, none, []⟩

/-- A measure holding a pitchless Note followed by a pitched one. -/
def restMeasure : Measure := ⟨3, none, none, [.note 0 none, .note 1 (some pC)]⟩

/-- A measure whose only note is C#4. -/
def sharpMeasure : Measure := ⟨4, none, none, [.note 0 (some ⟨"C", "#", 4⟩)]⟩

/-- A one-measure part around `demoMeasure`. -/
def demoPart : Part := ⟨"P1", none, [demoMeasure]⟩

/-- A single-part score around `demoPart`. -/
def demoScore : Score := ⟨[demoPart]⟩

/-- A run environment whose key analysis and PDF rendering both fail. -/
def demoEnv : RunEnv := ⟨true, demoScore, .error (), noneAdapter, .error ()⟩

/-- The output `process_musicxml_file` produces on `demoEnv`. -/
def demoOut : RunOutput :=
  { written := insert_chords_into_score demoScore demoPart
      (analyze_measures noneAdapter demoPart none)
    meta := { key := none, measures := 1, uncertain_measures := 0,
              pdf_written := false } }

/-- The analysis result of `demoMeasure` under `noneAdapter` and no key. -/
def demoResult : AnalysisResult := analyzeMeasure noneAdapter none demoMeasure

/-- The analysis result of `emptyMeasure`: no pitches, hence no symbol. -/
def emptyResult : AnalysisResult := analyzeMeasure noneAdapter none emptyMeasure

/-- A one-note part (one Note event). -/
def partA : Part := ⟨"A", none, [⟨1, none, none, [.note 0 (some pC)]⟩]⟩

/-- A two-note part (two Note events). -/
def partB : Part := ⟨"B", none, [⟨1, none, none, [.note 0 (some pC), .note 1 (some pE)]⟩]⟩

/-- A score listing the sparser part first. -/
def twoPartScore : Score := ⟨[partA, partB]⟩

/-- A measure whose nearest-to-offset-0 top-level event is a Chord, with its
only Note event later in the measure. -/
def mixMeasure : Measure := ⟨6, none, none, [.chord 0 [pE], .note 1 (some pC)]⟩

/-- A measure whose only event is a pitchless Note. -/
def pitchlessMeasure : Measure := ⟨5, none, none, [.note 0 none]⟩

/-- Its analysis: empty PitchSet, hence no symbol, flagged uncertain. -/
def pitchlessResult : AnalysisResult :=
  analyzeMeasure noneAdapter none pitchlessMeasure

/-! ## Loop-shape lemmas -/

/-- An append-accumulating fold builds the mapped list. -/
theorem foldl_append_map {α β : Type} (f : α → β) (l : List α) :
    ∀ init : List β, l.foldl (fun acc x => acc ++ [f x]) init = init ++ l.map f := by
  induction l with
  | nil => intro init; simp
  | cons x l ih => intro init; rw [List.foldl_cons, ih]; simp

/-- `analyze_measures` is the per-measure analysis mapped over the part's
measures, in order. -/
theorem analyze_measures_eq_map (o : Adapter) (p : Part) (k : Option Key) :
    analyze_measures o p k = p.measures.map (analyzeMeasure o k) := by
  unfold analyze_measures
  rw [foldl_append_map (analyzeMeasure o k) p.measures []]
  simp

/-- The per-measure analysis keeps the measure it analyzed. -/
theorem analyzeMeasure_meas (o : Adapter) (k : Option Key) (m : Measure) :
    (analyzeMeasure o k m).meas = m := rfl

/-- The per-measure `uncertain` flag is exactly the collection flag. -/
theorem analyzeMeasure_uncertain (o : Adapter) (k : Option Key) (m : Measure) :
    (analyzeMeasure o k m).uncertain = (measurePitches m).2 := rfl

/-- The measure-appending fold of the assembler, from any starting part. -/
theorem chordTrack_foldl (rs : List AnalysisResult) :
    ∀ p0 : Part,
      rs.foldl
          (fun part r => { part with measures := part.measures ++ [buildChordMeasure r] })
          p0
        = { p0 with measures := p0.measures ++ rs.map buildChordMeasure } := by
  induction rs with
  | nil => intro p0; simp
  | cons r rs ih => intro p0; rw [List.foldl_cons, ih]; simp

/-- The synthetic chords part in closed form. -/
theorem chordTrack_eq (rs : List AnalysisResult) :
    chordTrack rs
      = { id := "Chords", staffLines := some 0,
          measures := rs.map buildChordMeasure } := by
  unfold chordTrack
  rw [chordTrack_foldl]
  simp

/-- The part-inserting fold of the assembler appends the parts in order. -/
theorem foldl_insertPart (l : List Part) :
    ∀ init : Score, l.foldl Score.insertPart init = ⟨init.parts ++ l⟩ := by
  induction l with
  | nil => intro init; simp [Score.insertPart]
  | cons p ps ih => intro init; rw [List.foldl_cons, ih]; simp [Score.insertPart]

/-- The Note-collection loop in closed form. -/
theorem noteFold_eq (l : List (Option Pitch)) :
    ∀ (ps : List Pitch) (u : Bool),
      l.foldl noteStep (ps, u) = (ps ++ l.filterMap id, u || l.any Option.isNone) := by
  induction l with
  | nil => intro ps u; simp
  | cons op l ih =>
    intro ps u
    rw [List.foldl_cons]
    cases op with
    | none =>
      show l.foldl noteStep (ps, true) = _
      rw [ih]; simp
    | some p =>
      show l.foldl noteStep (ps ++ [p], u) = _
      rw [ih]; simp

/-- The Chord-collection loop in closed form. -/
theorem chordFold_eq (l : List (List Pitch)) :
    ∀ (ps : List Pitch) (u : Bool),
      l.foldl chordStep (ps, u) = (ps ++ l.flatten, u || l.any List.isEmpty) := by
  induction l with
  | nil => intro ps u; simp
  | cons c l ih =>
    intro ps u
    rw [List.foldl_cons]
    cases c with
    | nil =>
      show l.foldl chordStep (ps, true) = _
      rw [ih]; simp
    | cons x xs =>
      show l.foldl chordStep (ps ++ x :: xs, u) = _
      rw [ih]; simp

/-- The pitch collection in closed form: Note pitches (in stream order), then
Chord pitches; the flag records a pitchless Note or an empty Chord. -/
theorem measurePitches_eq (m : Measure) :
    measurePitches m
      = ((recNotesList m.elems).filterMap id ++ (recChordsList m.elems).flatten,
         (recNotesList m.elems).any Option.isNone
           || (recChordsList m.elems).any List.isEmpty) := by
  unfold measurePitches
  rw [noteFold_eq, chordFold_eq]
  simp

/-! ## Melody-selector lemmas -/

/-- The initial `-1` count is always beaten, so the loop starts by taking the
first part. -/
theorem selectLoop_start (b : Part) (bs : List Part) :
    selectLoop (none, -1) (b :: bs)
      = selectLoop (some b, (countPartNotes b : Int)) bs := by
  have h : (-1 : Int) < (countPartNotes b : Int) :=
    lt_of_lt_of_le neg_one_lt_zero (Int.natCast_nonneg _)
  simp only [selectLoop, if_pos h]

/-- Once seeded with a part and its count, the loop ends on the first part
attaining the running strict maximum. -/
theorem selectLoop_some (bs : List Part) :
    ∀ b : Part,
      (selectLoop (some b, (countPartNotes b : Int)) bs).1
        = some (firstMaxAux b bs) := by
  induction bs with
  | nil => intro b; rfl
  | cons p ps ih =>
    intro b
    by_cases h : countPartNotes b < countPartNotes p
    · have hi : (countPartNotes b : Int) < (countPartNotes p : Int) := by
        exact_mod_cast h
      simp only [selectLoop, if_pos hi, firstMaxAux, if_pos h]
      exact ih p
    · have hi : ¬((countPartNotes b : Int) < (countPartNotes p : Int)) := by
        exact_mod_cast h
      simp only [selectLoop, if_neg hi, firstMaxAux, if_neg h]
      exact ih b

/-- The fold seed is a lower bound of the max fold. -/
theorem le_maxFold (ps : List Part) :
    ∀ n : Nat, n ≤ ps.foldl (fun a p => max a (countPartNotes p)) n := by
  induction ps with
  | nil => intro n; exact le_refl n
  | cons p ps ih =>
    intro n
    rw [List.foldl_cons]
    exact le_trans (le_max_left n (countPartNotes p)) (ih _)

/-- Every listed part's count is bounded by the max fold. -/
theorem mem_le_maxFold (ps : List Part) :
    ∀ (n : Nat) (r : Part), r ∈ ps →
      countPartNotes r ≤ ps.foldl (fun a p => max a (countPartNotes p)) n := by
  induction ps with
  | nil => intro n r hr; cases hr
  | cons p ps ih =>
    intro n r hr
    rw [List.foldl_cons]
    cases hr with
    | head => exact le_trans (le_max_right n (countPartNotes p)) (le_maxFold ps _)
    | tail _ hm => exact ih _ r hm

/-- Peeling one part off the max count. -/
theorem maxCount_cons (b p : Part) (ps : List Part) :
    maxCount b (p :: ps)
      = maxCount (if countPartNotes b < countPartNotes p then p else b) ps := by
  by_cases h : countPartNotes b < countPartNotes p
  · simp only [maxCount, List.foldl_cons, if_pos h]
    congr 1
    exact max_eq_right (le_of_lt h)
  · simp only [maxCount, List.foldl_cons, if_neg h]
    congr 1
    exact max_eq_left (le_of_not_lt h)

/-- The loop's winner is the first part whose count equals the maximum. -/
theorem find_firstMaxAux (bs : List Part) :
    ∀ b : Part,
      (b :: bs).find? (fun p => countPartNotes p == maxCount b bs)
        = some (firstMaxAux b bs) := by
  induction bs with
  | nil =>
    intro b
    have hpos : (fun q => countPartNotes q == maxCount b []) b = true := by
      simp [maxCount]
    rw [List.find?_cons_of_pos (p := fun q => countPartNotes q == maxCount b [])
      (a := b) _ hpos]
    rfl
  | cons p ps ih =>
    intro b
    by_cases h : countPartNotes b < countPartNotes p
    · rw [maxCount_cons, if_pos h]
      simp only [firstMaxAux, if_pos h]
      have hple : countPartNotes p ≤ maxCount p ps := le_maxFold ps _
      have hbne : ¬((fun q => countPartNotes q == maxCount p ps) b = true) := by
        simp only [beq_iff_eq]
        omega
      rw [List.find?_cons_of_neg (p := fun q => countPartNotes q == maxCount p ps)
        (a := b) _ hbne]
      exact ih p
    · rw [maxCount_cons, if_neg h]
      simp only [firstMaxAux, if_neg h]
      have hble : countPartNotes b ≤ maxCount b ps := le_maxFold ps _
      by_cases hb : countPartNotes b = maxCount b ps
      · have hpos : (fun q => countPartNotes q == maxCount b ps) b = true := by
          simp only [beq_iff_eq]
          exact hb
        rw [List.find?_cons_of_pos (p := fun q => countPartNotes q == maxCount b ps)
          (a := b) _ hpos]
        have h2 := ih b
        rw [List.find?_cons_of_pos (p := fun q => countPartNotes q == maxCount b ps)
          (a := b) _ hpos] at h2
        exact h2
      · have hneg : ¬((fun q => countPartNotes q == maxCount b ps) b = true) := by
          simp only [beq_iff_eq]
          exact hb
        have hcp : countPartNotes p ≤ countPartNotes b := le_of_not_lt h
        have hpne : ¬((fun q => countPartNotes q == maxCount b ps) p = true) := by
          simp only [beq_iff_eq]
          omega
        rw [List.find?_cons_of_neg (p := fun q => countPartNotes q == maxCount b ps)
          (a := b) _ hneg]
        rw [List.find?_cons_of_neg (p := fun q => countPartNotes q == maxCount b ps)
          (a := p) _ hpne]
        have h2 := ih b
        rw [List.find?_cons_of_neg (p := fun q => countPartNotes q == maxCount b ps)
          (a := b) _ hneg] at h2
        exact h2

/-- On a non-empty score the selector returns the first running-max part. -/
theorem choose_melody_part_cons (b : Part) (bs : List Part) (s : Score)
    (hs : s.parts = b :: bs) :
    choose_melody_part s = .ok (firstMaxAux b bs) := by
  unfold choose_melody_part
  rw [hs]
  rw [if_neg (by simp)]
  rw [selectLoop_start, selectLoop_some]

/-! ## Harmonizer-chain lemmas -/

/-- Pointwise equal functions map equally. -/
theorem map_ext {α β : Type} (f g : α → β) (l : List α) (h : ∀ a, f a = g a) :
    l.map f = l.map g := by
  induction l with
  | nil => rfl
  | cons x l ih => simp [h, ih]

/-- Analysis results with equal components are equal. -/
theorem analysisResult_ext (r1 r2 : AnalysisResult) (h1 : r1.meas = r2.meas)
    (h2 : r1.cs = r2.cs) (h3 : r1.uncertain = r2.uncertain) : r1 = r2 := by
  cases r1; cases r2
  cases h1; cases h2; cases h3
  rfl

/-- When the spelling step yields a symbol, that symbol is the measure's
result (the fallback stages are not consulted). -/
theorem analyzeMeasure_cs_of_spell (o : Adapter) (k : Option Key) (m : Measure)
    (c : ChordSym) (hne : (measurePitches m).1 ≠ [])
    (h : spellChord o (measurePitches m).1 = some c) :
    (analyzeMeasure o k m).cs = some c := by
  have hlen : 0 < (measurePitches m).1.length := List.length_pos.mpr hne
  unfold analyzeMeasure
  simp only [if_pos hlen, h]

/-- When spelling yields nothing and a key is available, the result is the
key-relative fallback when it succeeds and the bare-root fallback otherwise. -/
theorem analyzeMeasure_cs_of_nospell_key (o : Adapter) (kk : Key) (m : Measure)
    (hne : (measurePitches m).1 ≠ [])
    (h : spellChord o (measurePitches m).1 = none) :
    (analyzeMeasure o (some kk) m).cs
      = (match keyFallback o m kk with
         | some c => some c
         | none => rootFallback (measurePitches m).1) := by
  have hlen : 0 < (measurePitches m).1.length := List.length_pos.mpr hne
  unfold analyzeMeasure
  simp only [if_pos hlen, h]
  cases hkf : keyFallback o m kk with
  | none => simp [hkf, if_pos hlen]
  | some c => simp [hkf]

/-- When spelling yields nothing and no key is available, the result is the
bare-root fallback. -/
theorem analyzeMeasure_cs_of_nospell_nokey (o : Adapter) (m : Measure)
    (hne : (measurePitches m).1 ≠ [])
    (h : spellChord o (measurePitches m).1 = none) :
    (analyzeMeasure o none m).cs = rootFallback (measurePitches m).1 := by
  have hlen : 0 < (measurePitches m).1.length := List.length_pos.mpr hne
  unfold analyzeMeasure
  simp only [if_pos hlen, h]

/-- Under sorted non-negative top-level offsets (which music21 stream
iteration guarantees) the reference element of the key-relative fallback is
the measure's first top-level note, whether or not a true downbeat exists. -/
theorem downbeatRef_head (m : Measure)
    (hsorted : (measNotes m).Pairwise (fun a b => a.off ≤ b.off))
    (hnn : ∀ e ∈ measNotes m, 0 ≤ e.off) :
    downbeatRef m = (measNotes m).head? := by
  unfold downbeatRef
  cases hmn : measNotes m with
  | nil => rfl
  | cons e es =>
    by_cases he : |e.off - 0| < (1 : QL) / 100000000
    · have hpe : (fun x => decide (|MElem.off x - 0| < (1 : QL) / 100000000)) e
          = true := by
        simp only [decide_eq_true_eq]
        exact he
      rw [List.filter_cons_of_pos
        (p := fun x => decide (|MElem.off x - 0| < (1 : QL) / 100000000))
        (a := e) hpe]
      rfl
    · have h0e : 0 ≤ e.off := hnn e (by rw [hmn]; exact List.mem_cons_self e es)
      have heps : (1 : QL) / 100000000 ≤ e.off := by
        rw [abs_of_nonneg (by linarith : (0 : QL) ≤ e.off - 0)] at he
        linarith [not_lt.mp he]
      have hpe : ¬((fun x => decide (|MElem.off x - 0| < (1 : QL) / 100000000)) e
          = true) := by
        simp only [decide_eq_true_eq]
        exact he
      rw [List.filter_cons_of_neg
        (p := fun x => decide (|MElem.off x - 0| < (1 : QL) / 100000000))
        (a := e) hpe]
      have hrest : es.filter
          (fun x => decide (|MElem.off x - 0| < (1 : QL) / 100000000)) = [] := by
        rw [List.filter_eq_nil_iff]
        intro x hx
        have hle : e.off ≤ x.off := by
          have := (List.pairwise_cons.mp (hmn ▸ hsorted)).1
          exact this x hx
        have h0x : 0 ≤ x.off := by
          apply hnn x
          rw [hmn]
          exact List.mem_cons_of_mem e hx
        simp only [decide_eq_true_eq]
        rw [abs_of_nonneg (by linarith : (0 : QL) ≤ x.off - 0)]
        intro hlt
        linarith
      rw [hrest]

/-- The reduction of a successful run of `process_musicxml_file`. -/
theorem process_ok (env : RunEnv) (out_pdf : Bool) (melody : Part)
    (hin : env.inputExists = true)
    (hmel : choose_melody_part env.score = .ok melody) :
    process_musicxml_file env out_pdf
      = (let score_key : Option Key :=
           match env.keyResult with
           | .ok k => some k
           | .error _ => none
         let analysis_results := analyze_measures env.adapter melody score_key
         .ok { written := insert_chords_into_score env.score melody analysis_results
               meta := { key := score_key
                         measures := analysis_results.length
                         uncertain_measures :=
                           (analysis_results.filter (fun r => r.uncertain)).length
                         pdf_written :=
                           if out_pdf then
                             match env.pdfWrite with
                             | .ok _ => true
                             | .error _ => false
                           else false } }) := by
  unfold process_musicxml_file
  rw [hin]
  rw [if_neg (by simp)]
  rw [hmel]

/-! ## Claim theorems -/

/-- C1: for every melody Part the Harmonizer returns exactly one
AnalysisResult per Measure, in the same order as the Part's measures (the
results' measures are the Part's measure list itself); consequently the
metadata field `measures` of a completed run equals the selected melody
Part's measure count. -/
theorem claim_C1_one_result_per_measure (o : Adapter) (p : Part) (k : Option Key)
    (env : RunEnv) (out_pdf : Bool) (out : RunOutput) (melody : Part)
    (hrun : process_musicxml_file env out_pdf = .ok out)
    (hmel : choose_melody_part env.score = .ok melody) :
    (analyze_measures o p k).map AnalysisResult.meas = p.measures
    ∧ out.meta.measures = melody.measures.length := by
  constructor
  · rw [analyze_measures_eq_map, List.map_map]
    have h : (AnalysisResult.meas ∘ analyzeMeasure o k) = id := by
      funext m
      exact analyzeMeasure_meas o k m
    rw [h, List.map_id]
  · have hin : env.inputExists = true := by
      by_contra hc
      have hfalse : env.inputExists = false := by
        cases henv : env.inputExists
        · rfl
        · exact absurd henv hc
      unfold process_musicxml_file at hrun
      rw [hfalse] at hrun
      simp at hrun
    rw [process_ok env out_pdf melody hin hmel] at hrun
    injection hrun with h
    subst h
    show (analyze_measures env.adapter melody _).length = melody.measures.length
    rw [analyze_measures_eq_map, List.length_map]

/-- Witness for C1 on a concrete run. -/
theorem claim_C1_witness :
    (analyze_measures noneAdapter demoPart none).map AnalysisResult.meas
        = demoPart.measures
    ∧ demoOut.meta.measures = demoPart.measures.length :=
  claim_C1_one_result_per_measure noneAdapter demoPart none demoEnv true demoOut
    demoPart rfl rfl

/-- C2: on a Score with at least one Part the Melody Selector returns the
first Part attaining the maximal recursive Note count (first-wins on ties,
expressed through `List.find?`); that Part belongs to the Score and its
count bounds every Part's count; a single-Part Score yields that Part; a
zero-Part Score fails with the no-parts error. -/
theorem claim_C2_melody_selection (s : Score) :
    (s.parts = [] → choose_melody_part s = .error "No parts found in score")
    ∧ (∀ b bs, s.parts = b :: bs →
        ∃ q, choose_melody_part s = .ok q
          ∧ (b :: bs).find? (fun p => countPartNotes p == maxCount b bs) = some q
          ∧ q ∈ s.parts
          ∧ ∀ r ∈ s.parts, countPartNotes r ≤ countPartNotes q)
    ∧ (∀ b, s.parts = [b] → choose_melody_part s = .ok b) := by
  refine ⟨?_, ?_, ?_⟩
  · intro h
    unfold choose_melody_part
    rw [h]
    rfl
  · intro b bs hs
    refine ⟨firstMaxAux b bs, choose_melody_part_cons b bs s hs,
      find_firstMaxAux bs b, ?_, ?_⟩
    · rw [hs]
      exact List.mem_of_find?_eq_some (find_firstMaxAux bs b)
    · intro r hr
      have hq := List.find?_some (find_firstMaxAux bs b)
      have hqe : countPartNotes (firstMaxAux b bs) = maxCount b bs :=
        beq_iff_eq.mp hq
      rw [hqe]
      rw [hs] at hr
      cases hr with
      | head => exact le_maxFold bs _
      | tail _ hm => exact mem_le_maxFold bs _ r hm
  · intro b hb
    have h := choose_melody_part_cons b [] s hb
    simpa [firstMaxAux] using h

/-- Witness for C2: the two-note part beats the one-note part even though it
is declared second. -/
theorem claim_C2_witness : choose_melody_part twoPartScore = .ok partB := by
  obtain ⟨q, hq, hfind, -, -⟩ :=
    (claim_C2_melody_selection twoPartScore).2.1 partA [partB] rfl
  have h2 : [partA, partB].find?
      (fun p => countPartNotes p == maxCount partA [partB]) = some partB := rfl
  rw [h2] at hfind
  obtain rfl : partB = q := Option.some.inj hfind
  exact hq

/-- C3: the Assembler's synthetic Chords Part has exactly one Measure per
AnalysisResult, with the same count and the same sequence of measure numbers
as the results (and hence as the melody Part when the results come from the
Harmonizer), and each synthetic Measure carries the source Measure's time
signature and key signature whenever present. -/
theorem claim_C3_chord_track_aligned (rs : List AnalysisResult) (o : Adapter)
    (p : Part) (k : Option Key) :
    (chordTrack rs).measures.length = rs.length
    ∧ (chordTrack rs).measures.map Measure.number
        = rs.map (fun r => r.meas.number)
    ∧ (∀ r ∈ rs, (buildChordMeasure r).timeSignature = r.meas.timeSignature
        ∧ (buildChordMeasure r).keySignature = r.meas.keySignature)
    ∧ (chordTrack (analyze_measures o p k)).measures.map Measure.number
        = p.measures.map Measure.number
    ∧ (chordTrack (analyze_measures o p k)).measures.length
        = p.measures.length := by
  refine ⟨?_, ?_, ?_, ?_, ?_⟩
  · rw [chordTrack_eq]
    simp
  · rw [chordTrack_eq]
    simp only [List.map_map]
    exact map_ext _ _ rs (fun r => rfl)
  · intro r hr
    exact ⟨rfl, rfl⟩
  · rw [chordTrack_eq, analyze_measures_eq_map]
    simp only [List.map_map]
    exact map_ext _ _ p.measures (fun m => rfl)
  · rw [chordTrack_eq, analyze_measures_eq_map]
    simp

/-- Witness for C3 on a singleton result list. -/
theorem claim_C3_witness :
    (chordTrack [demoResult]).measures.length = 1
    ∧ (buildChordMeasure demoResult).timeSignature
        = demoResult.meas.timeSignature := by
  have h := claim_C3_chord_track_aligned [demoResult] noneAdapter demoPart none
  exact ⟨h.1, (h.2.2.1 demoResult (by simp)).1⟩

/-- C4: the Assembler builds a new composite Score whose part list is the
synthetic Chords Part followed by the original parts in their original
relative order; the original Score's part list (with all its Parts and
Measures) appears as the untouched tail, so nothing of the original is
mutated. -/
theorem claim_C4_composite_order (s : Score) (mp : Part)
    (rs : List AnalysisResult) :
    (insert_chords_into_score s mp rs).parts = chordTrack rs :: s.parts := by
  simp only [insert_chords_into_score]
  rw [foldl_insertPart]
  rfl

/-- C5: for a non-empty PitchSet the spelling step's direct (non-forced)
attempt wins when it yields a figure; a `None` return falls to the forced
triad retry, whose figure then wins; and an exception anywhere in the step
(direct or forced) is swallowed — the analysis result is identical to that
of an adapter whose spelling simply yields no symbol, so the remaining
fallback stages still run and nothing is surfaced. -/
theorem claim_C5_spelling_chain (o oN : Adapter) (k : Option Key) (m : Measure)
    (hne : (measurePitches m).1 ≠ []) :
    (∀ fig, o.spell (measurePitches m).1 false = .ok (some fig) →
      (analyzeMeasure o k m).cs = some (ChordSym.ofFigure fig))
    ∧ (∀ fig, o.spell (measurePitches m).1 false = .ok none →
        o.spell (measurePitches m).1 true = .ok (some fig) →
        (analyzeMeasure o k m).cs = some (ChordSym.ofFigure fig))
    ∧ ((o.spell (measurePitches m).1 false = .error ()
          ∨ o.spell (measurePitches m).1 false = .ok none
            ∧ o.spell (measurePitches m).1 true = .error ()) →
        oN.spell = (fun _ _ => .ok none) →
        oN.roman = o.roman →
        analyzeMeasure o k m = analyzeMeasure oN k m) := by
  refine ⟨?_, ?_, ?_⟩
  · intro fig hsp
    have hspell : spellChord o (measurePitches m).1 = some (ChordSym.ofFigure fig) := by
      unfold spellChord
      rw [hsp]
    exact analyzeMeasure_cs_of_spell o k m _ hne hspell
  · intro fig h1 h2
    have hspell : spellChord o (measurePitches m).1 = some (ChordSym.ofFigure fig) := by
      unfold spellChord
      rw [h1, h2]
    exact analyzeMeasure_cs_of_spell o k m _ hne hspell
  · intro hfail hN hNr
    have hsO : spellChord o (measurePitches m).1 = none := by
      unfold spellChord
      rcases hfail with h1 | ⟨h1, h2⟩
      · rw [h1]
      · rw [h1, h2]
    have hsN : spellChord oN (measurePitches m).1 = none := by
      unfold spellChord
      rw [hN]
    cases k with
    | none =>
      have e1 := analyzeMeasure_cs_of_nospell_nokey o m hne hsO
      have e2 := analyzeMeasure_cs_of_nospell_nokey oN m hne hsN
      exact analysisResult_ext _ _ rfl (by rw [e1, e2]) rfl
    | some kk =>
      have hkfe : keyFallback oN m kk = keyFallback o m kk := by
        unfold keyFallback
        rw [hNr]
      have e1 := analyzeMeasure_cs_of_nospell_key o kk m hne hsO
      have e2 := analyzeMeasure_cs_of_nospell_key oN kk m hne hsN
      exact analysisResult_ext _ _ rfl (by rw [e1, e2, hkfe]) rfl

/-- Witness for C5: an adapter whose direct spelling yields `"C"` labels the
demo measure `"C"`. -/
theorem claim_C5_witness :
    (analyzeMeasure spellCAdapter none demoMeasure).cs
      = some (ChordSym.ofFigure "C") :=
  (claim_C5_spelling_chain spellCAdapter noneAdapter none demoMeasure
    (by decide)).1 "C" rfl

/-- C6 (amended): in the key-relative fallback (run when spelling yielded
nothing, the PitchSet is non-empty and a global Key is available), the
reference element is the measure's first top-level note-or-chord event —
which, under the sorted non-negative offsets of stream order, is the event
starting nearest offset 0 (the first event when none sits within the 1e-8
tolerance of offset 0, the first of several ties); only when that event is a
single Note carrying a pitch is that pitch's Roman-numeral figure against
the Key used as the chord label; a failed inference, a reference that is a
Chord event or a pitchless Note, or a measure with no top-level events at
all (e.g. notes nested in Voices), is swallowed, falling through to the
bare-root stage. -/
theorem claim_C6_key_fallback (o : Adapter) (kk : Key) (m : Measure)
    (hsorted : (measNotes m).Pairwise (fun a b => a.off ≤ b.off))
    (hnn : ∀ e ∈ measNotes m, 0 ≤ e.off)
    (hspell : spellChord o (measurePitches m).1 = none)
    (hne : (measurePitches m).1 ≠ []) :
    downbeatRef m = (measNotes m).head?
    ∧ (∀ e0, downbeatRef m = some e0 →
        ∀ e ∈ measNotes m, |e0.off - 0| ≤ |e.off - 0|)
    ∧ (∀ e0 p fig, downbeatRef m = some e0 → e0.notePitch = some p →
        o.roman p kk = .ok fig →
        (analyzeMeasure o (some kk) m).cs = some (ChordSym.ofFigure fig))
    ∧ (∀ e0 p, downbeatRef m = some e0 → e0.notePitch = some p →
        o.roman p kk = .error () →
        (analyzeMeasure o (some kk) m).cs
          = rootFallback (measurePitches m).1)
    ∧ (∀ e0, downbeatRef m = some e0 → e0.notePitch = none →
        (analyzeMeasure o (some kk) m).cs
          = rootFallback (measurePitches m).1)
    ∧ (downbeatRef m = none →
        (analyzeMeasure o (some kk) m).cs
          = rootFallback (measurePitches m).1) := by
  have hhead := downbeatRef_head m hsorted hnn
  refine ⟨hhead, ?_, ?_, ?_, ?_, ?_⟩
  · intro e0 hd0 e he
    rw [hhead] at hd0
    cases hmn : measNotes m with
    | nil =>
      rw [hmn] at hd0
      simp at hd0
    | cons h t =>
      rw [hmn] at hd0
      simp only [List.head?_cons, Option.some.injEq] at hd0
      subst hd0
      have h0h : 0 ≤ h.off := hnn h (by rw [hmn]; exact List.mem_cons_self _ _)
      have h0e : 0 ≤ e.off := hnn e he
      rw [abs_of_nonneg (by linarith : (0 : QL) ≤ h.off - 0),
          abs_of_nonneg (by linarith : (0 : QL) ≤ e.off - 0)]
      rw [hmn] at he
      cases he with
      | head => linarith
      | tail _ hm =>
        have hp := (List.pairwise_cons.mp (hmn ▸ hsorted)).1 e hm
        linarith
  · intro e0 p fig hd0 hp hr
    have hkf : keyFallback o m kk = some (ChordSym.ofFigure fig) := by
      simp only [keyFallback, hd0, hp, hr]
    rw [analyzeMeasure_cs_of_nospell_key o kk m hne hspell, hkf]
  · intro e0 p hd0 hp hr
    have hkf : keyFallback o m kk = none := by
      simp only [keyFallback, hd0, hp, hr]
    rw [analyzeMeasure_cs_of_nospell_key o kk m hne hspell, hkf]
  · intro e0 hd0 hp
    have hkf : keyFallback o m kk = none := by
      simp only [keyFallback, hd0, hp]
    rw [analyzeMeasure_cs_of_nospell_key o kk m hne hspell, hkf]
  · intro hd0
    have hkf : keyFallback o m kk = none := by
      simp only [keyFallback, hd0]
    rw [analyzeMeasure_cs_of_nospell_key o kk m hne hspell, hkf]

/-- Counterexample for C6 as frozen: in a measure whose nearest-to-offset-0
top-level event is a Chord, the stage never uses the pitch of the Note
starting nearest offset 0.  Here the only Note holds C4, whose Roman-numeral
conversion against C major succeeds with figure `"I"`, the PitchSet is
non-empty and spelling yielded nothing — yet the measure is labelled by the
bare-root stage as `"C"`, not `"I"`. -/
theorem claim_C6_counterexample :
    spellChord romanAdapter (measurePitches mixMeasure).1 = none
    ∧ (measurePitches mixMeasure).1 = [pC, pE]
    ∧ romanAdapter.roman pC "C major" = .ok "I"
    ∧ (MElem.note 1 (some pC)) ∈ measNotes mixMeasure
    ∧ (MElem.note 1 (some pC)).notePitch = some pC
    ∧ (∀ e ∈ measNotes mixMeasure,
        (∃ p, e.notePitch = some p) → e = MElem.note 1 (some pC))
    ∧ (analyzeMeasure romanAdapter (some "C major") mixMeasure).cs
        = some (ChordSym.ofFigure "C")
    ∧ (analyzeMeasure romanAdapter (some "C major") mixMeasure).cs
        ≠ some (ChordSym.ofFigure "I") := by
  have hd0 : downbeatRef mixMeasure = some (MElem.chord 0 [pE]) := by
    have h1 : measNotes mixMeasure
        = [MElem.chord 0 [pE], MElem.note 1 (some pC)] := rfl
    unfold downbeatRef
    rw [h1]
    norm_num [List.filter_cons, MElem.off]
  have hkf : keyFallback romanAdapter mixMeasure "C major" = none := by
    simp only [keyFallback, hd0]
    rfl
  have hcs : (analyzeMeasure romanAdapter (some "C major") mixMeasure).cs
      = some (ChordSym.ofFigure "C") := by
    rw [analyzeMeasure_cs_of_nospell_key romanAdapter "C major" mixMeasure
      (by decide) rfl, hkf]
    rfl
  refine ⟨rfl, rfl, rfl,
    List.mem_cons_of_mem _ (List.mem_cons_self _ _), rfl, ?_, hcs, ?_⟩
  · intro e he hp
    have hm : measNotes mixMeasure
        = [MElem.chord 0 [pE], MElem.note 1 (some pC)] := rfl
    rw [hm] at he
    cases he with
    | head => obtain ⟨p, hp⟩ := hp; cases hp
    | tail _ hm2 =>
      cases hm2 with
      | head => rfl
      | tail _ hm3 => cases hm3
  · rw [hcs]
    decide

/-- Witness for C6 (amended): the demo measure's downbeat note C4 against
C major gives the figure `"I"`. -/
theorem claim_C6_witness :
    (analyzeMeasure romanAdapter (some "C major") demoMeasure).cs
      = some (ChordSym.ofFigure "I") := by
  have hd0 : downbeatRef demoMeasure = some (MElem.note 0 (some pC)) := by
    have h1 : measNotes demoMeasure
        = [MElem.note 0 (some pC), MElem.note 1 (some pE)] := rfl
    unfold downbeatRef
    rw [h1]
    norm_num [List.filter_cons, MElem.off]
  have h := claim_C6_key_fallback romanAdapter "C major" demoMeasure
    (by decide) (by decide) rfl (by decide)
  exact h.2.2.1 (MElem.note 0 (some pC)) pC "I" hd0 rfl rfl

/-- C7: whenever no earlier stage produced a symbol, the bare-root fallback
labels the measure with the first collected pitch's name, and — the fallback
being total — every measure with a non-empty PitchSet ends with some chord
symbol in its result. -/
theorem claim_C7_bare_root (o : Adapter) (k : Option Key) (m : Measure)
    (p : Pitch) (rest : List Pitch)
    (hP : (measurePitches m).1 = p :: rest) :
    ((spellChord o (measurePitches m).1 = none) →
      (∀ kk, k = some kk → keyFallback o m kk = none) →
      (analyzeMeasure o k m).cs = some (ChordSym.ofFigure p.name))
    ∧ (analyzeMeasure o k m).cs.isSome = true := by
  have hne : (measurePitches m).1 ≠ [] := by
    rw [hP]
    simp
  constructor
  · intro hsp hkey
    cases k with
    | none =>
      rw [analyzeMeasure_cs_of_nospell_nokey o m hne hsp, hP]
      rfl
    | some kk =>
      rw [analyzeMeasure_cs_of_nospell_key o kk m hne hsp, hkey kk rfl, hP]
      rfl
  · by_cases hs : ∃ c, spellChord o (measurePitches m).1 = some c
    · obtain ⟨c, hc⟩ := hs
      rw [analyzeMeasure_cs_of_spell o k m c hne hc]
      rfl
    · have hsp : spellChord o (measurePitches m).1 = none := by
        cases hv : spellChord o (measurePitches m).1 with
        | none => rfl
        | some c => exact absurd ⟨c, hv⟩ hs
      cases k with
      | none =>
        rw [analyzeMeasure_cs_of_nospell_nokey o m hne hsp, hP]
        rfl
      | some kk =>
        rw [analyzeMeasure_cs_of_nospell_key o kk m hne hsp]
        cases hkf : keyFallback o m kk with
        | none =>
          rw [hP]
          rfl
        | some c => rfl

/-- Witness for C7: the measure whose only note is C#4 gets the bare root
label `"C#"` (the pitch's name keeps the accidental, drops the octave). -/
theorem claim_C7_witness :
    (analyzeMeasure noneAdapter none sharpMeasure).cs
        = some (ChordSym.ofFigure "C#")
    ∧ (analyzeMeasure noneAdapter none sharpMeasure).cs.isSome = true := by
  have h := claim_C7_bare_root noneAdapter none sharpMeasure ⟨"C", "#", 4⟩ [] rfl
  exact ⟨h.1 rfl (fun kk hkk => nomatch hkk), h.2⟩

/-- C8: the uncertain flag is true exactly when the measure contained a
pitchless Note or a zero-pitch Chord, and it does not depend on the adapter
or the key — so failures of the spelling or inference stages (including a
fall-through to the bare-root fallback on complete pitch data) never set
it. -/
theorem claim_C8_uncertain_source (o o2 : Adapter) (k k2 : Option Key)
    (m : Measure) :
    ((analyzeMeasure o k m).uncertain = true
      ↔ (∃ op ∈ recNotesList m.elems, op = none)
        ∨ (∃ ps ∈ recChordsList m.elems, ps = []))
    ∧ (analyzeMeasure o k m).uncertain = (analyzeMeasure o2 k2 m).uncertain := by
  constructor
  · rw [analyzeMeasure_uncertain, measurePitches_eq]
    simp [List.any_eq_true, Option.isNone_iff_eq_none, List.isEmpty_iff]
  · rw [analyzeMeasure_uncertain, analyzeMeasure_uncertain]

/-- Witness for C8: the measure holding a pitchless Note is flagged. -/
theorem claim_C8_witness :
    (analyzeMeasure noneAdapter none restMeasure).uncertain = true :=
  (claim_C8_uncertain_source noneAdapter romanAdapter none (some "C major")
    restMeasure).1.mpr (Or.inl ⟨none, by decide, rfl⟩)

/-- C9: when the external PDF rendering step fails, the run still completes:
the composite score is still handed to the MusicXML writer and the returned
metadata carries `pdf_written = false` alongside the key label (or its
absence), the total measure count and the uncertain-measure count. -/
theorem claim_C9_render_failure (env : RunEnv) (melody : Part)
    (hin : env.inputExists = true)
    (hmel : choose_melody_part env.score = .ok melody)
    (hpdf : env.pdfWrite = .error ()) :
    process_musicxml_file env true
      = .ok { written := insert_chords_into_score env.score melody
                (analyze_measures env.adapter melody
                  (match env.keyResult with
                   | .ok kk => some kk
                   | .error _ => none))
              meta := { key := (match env.keyResult with
                                | .ok kk => some kk
                                | .error _ => none)
                        measures := melody.measures.length
                        uncertain_measures :=
                          ((analyze_measures env.adapter melody
                            (match env.keyResult with
                             | .ok kk => some kk
                             | .error _ => none)).filter
                              (fun r => r.uncertain)).length
                        pdf_written := false } } := by
  rw [process_ok env true melody hin hmel, hpdf]
  simp [analyze_measures_eq_map]

/-- Witness for C9 on the demo environment whose rendering fails. -/
theorem claim_C9_witness :
    process_musicxml_file demoEnv true
      = .ok { written := insert_chords_into_score demoScore demoPart
                (analyze_measures noneAdapter demoPart none)
              meta := { key := none, measures := 1, uncertain_measures := 0,
                        pdf_written := false } } := by
  exact claim_C9_render_failure demoEnv demoPart rfl rfl rfl

/-- C10: an AnalysisResult without a chord symbol yields a synthetic Measure
with no events at all; in particular an uncertain, symbol-less result gets no
`"(uncertain)"` lyric, since that text is only attached to a chord-symbol
copy. -/
theorem claim_C10_no_symbol_no_events (r : AnalysisResult) (h : r.cs = none) :
    (buildChordMeasure r).elems = [] := by
  unfold buildChordMeasure
  rw [h]

/-- Witness for C10: the pitchless measure's result is uncertain and has no
symbol, and its synthetic measure is empty. -/
theorem claim_C10_witness : (buildChordMeasure pitchlessResult).elems = [] :=
  claim_C10_no_symbol_no_events pitchlessResult rfl

end MusicApp
